import Mathlib

/-!
# Verification of the OCR evaluation notebook (`Evaluation_OFFdata.ipynb`)

This file gives a shallow embedding of the pure computational core of the
notebook: the token-cleaning helpers `clean_word` / `clean_text`, the
information-retrieval metrics `precision` / `recall` / `F1score`, the
`top210` selection, and the CSV cell round trip used to cache the
Pytesseract detections.

Modelling conventions:
* Python strings are Lean `String`s (lists of Unicode scalar values).
  `str.lower` is modelled on the ASCII range (`pyLowerChar`), which is the
  range the subsequent `[^a-zA-Z]` filter keeps; `str.strip` and `str.split`
  use `Char.isWhitespace` for Python's whitespace class.
* Python's float division on the metric values is modelled exactly as
  division in `ℚ`.  Exceptions (`IndexError` from the `lst[i]` lookups and
  `ZeroDivisionError` in `recall`) are modelled by `Option`, `none` meaning
  the Python code raises.
* Python's `sorted` (a stable comparison sort) is modelled by Mathlib's
  stable `List.insertionSort`; `set(...)` followed by `sorted` is modelled
  by `List.dedup` followed by the same sort, which produces the same list.
* `numpy.argsort` on the negated score vector is modelled by a sort of the
  index list `[0, ..., n-1]` by descending score (`argsortDesc`).
-/

namespace OFFEval

/-- The character class `[a-zA-Z]` of the regexes in `clean_word` and the
CSV reload cell. -/
def isAsciiLetter (c : Char) : Bool :=
  (65 ≤ c.toNat && c.toNat ≤ 90) || (97 ≤ c.toNat && c.toNat ≤ 122)

/-- The character class `[0-9]` of the first regex in `clean_text`. -/
def pyIsDigit (c : Char) : Bool :=
  48 ≤ c.toNat && c.toNat ≤ 57

/-- The character class of the second regex in `clean_text`,
`'['+string.punctuation+']'`.  `string.punctuation` is the ASCII codes
33–47, 58–64, 91–96 and 123–126, but inside the regex class its backslash
escapes the `]` that follows (`\]` matches a literal `]`), so the
backslash itself (code 92) is *not* matched by the regex; every other
punctuation character is. -/
def pyIsPunct (c : Char) : Bool :=
  (33 ≤ c.toNat && c.toNat ≤ 47) || (58 ≤ c.toNat && c.toNat ≤ 64) ||
    (91 ≤ c.toNat && c.toNat ≤ 96 && c.toNat != 92) ||
    (123 ≤ c.toNat && c.toNat ≤ 126)

/-- The punctuation class as the specification's wording reads: *every*
character of Python's `string.punctuation`, the backslash included.  Used
only spec-side, to compare with what the program's regex actually
matches. -/
def pyIsPunctFull (c : Char) : Bool :=
  (33 ≤ c.toNat && c.toNat ≤ 47) || (58 ≤ c.toNat && c.toNat ≤ 64) ||
    (91 ≤ c.toNat && c.toNat ≤ 96) || (123 ≤ c.toNat && c.toNat ≤ 126)

/-- Python `str.lower`, restricted to the ASCII letters (the only
characters that survive the `[^a-zA-Z]` filter that follows it in
`clean_word`). -/
def pyLowerChar (c : Char) : Char :=
  if 65 ≤ c.toNat ∧ c.toNat ≤ 90 then Char.ofNat (c.toNat + 32) else c

/-- Python `str.strip()`: drop leading and trailing whitespace. -/
def pyStrip (l : List Char) : List Char :=
  ((l.dropWhile Char.isWhitespace).reverse.dropWhile Char.isWhitespace).reverse

/-- Split a character list at every separator character, keeping empty
pieces, as Python's `str.split(sep)` does.  The result is always
non-empty. -/
def pySplitSep (sep : Char → Bool) : List Char → List (List Char)
  | [] => [[]]
  | c :: cs =>
    if sep c then [] :: pySplitSep sep cs
    else
      match pySplitSep sep cs with
      | [] => [[c]]
      | p :: ps => (c :: p) :: ps

/-- Python's no-argument `str.split()`: split on whitespace and drop the
empty pieces. -/
def pySplitWs (l : List Char) : List (List Char) :=
  (pySplitSep Char.isWhitespace l).filter (· ≠ [])

/-- `clean_word` from the notebook:
`c_word = word.lower().strip()`, then `re.sub('[^a-zA-Z]+', '', c_word)`,
then replace the result by `""` if fewer than 2 characters remain. -/
def clean_word (word : String) : String :=
  let c1 := pyStrip (word.data.map pyLowerChar)
  let c2 := c1.filter isAsciiLetter
  if c2.length < 2 then "" else ⟨c2⟩

/-- The order Python `sorted` uses on strings: code-point lexicographic.
Defined on the underlying character lists (it is equivalent to Lean's `≤`
on `String`, but this form evaluates inside the kernel). -/
def pyStrLe (a b : String) : Prop := a.data ≤ b.data

instance : DecidableRel pyStrLe := fun a b =>
  inferInstanceAs (Decidable (a.data ≤ b.data))

instance : IsTotal String pyStrLe :=
  ⟨fun a b => by
    rcases le_total a b with h | h
    · exact Or.inl (String.le_iff_toList_le.mp h)
    · exact Or.inr (String.le_iff_toList_le.mp h)⟩

instance : IsTrans String pyStrLe :=
  ⟨fun _ _ _ h1 h2 =>
    String.le_iff_toList_le.mp
      (le_trans (String.le_iff_toList_le.mpr h1)
        (String.le_iff_toList_le.mpr h2))⟩

/-- Python `sorted` on strings. -/
def pySortStrings (l : List String) : List String :=
  l.insertionSort pyStrLe

/-- The common tail of `clean_text`:
`sorted(list(filter(None, set(c_text))))`. -/
def pyPost (c_text : List String) : List String :=
  pySortStrings (c_text.dedup.filter (· ≠ ""))

/-- The tokenisation done by `clean_text` in its default (`split=True`)
branch: replace every digit with a space, then every punctuation character
with a space, then split on whitespace. -/
def pyTokens (text : String) : List (List Char) :=
  pySplitWs ((text.data.map fun c => if pyIsDigit c then ' ' else c).map
    fun c => if pyIsPunct c then ' ' else c)

/-- `clean_text(text)` with the default `split=True` (the branch applied to
the ground-truth ingredient strings). -/
def clean_text (text : String) : List String :=
  pyPost ((pyTokens text).map fun w => clean_word ⟨w⟩)

/-- `clean_text(text, split=False)` (the branch applied to the
already-tokenised OCR output, a list of strings). -/
def clean_text_nosplit (text : List String) : List String :=
  pyPost (text.map clean_word)

/-- `clean_text` with `split=True` as the specification's wording
describes it: every digit and every punctuation character — the backslash
included — replaced by a space before tokenising.  Differs from the
program exactly on texts containing a backslash. -/
def clean_text_claim (text : String) : List String :=
  pyPost ((pySplitWs ((text.data.map fun c => if pyIsDigit c then ' ' else c).map
    fun c => if pyIsPunctFull c then ' ' else c)).map fun w => clean_word ⟨w⟩)

/-- `tp` inside `precision` and `recall`:
`sum([dw in actual_ingredients for dw in detected_words])`. -/
def tp (detected_words actual_ingredients : List String) : Nat :=
  detected_words.countP fun dw => decide (dw ∈ actual_ingredients)

/-- `precision(ing_lst, i, ingredients)` from the notebook.  `none` models
an `IndexError` on the two list lookups. -/
def precision (ing_lst : List (List String)) (i : Nat)
    (ingredients : List (List String)) : Option ℚ := do
  let detected_words ← ing_lst[i]?
  let actual_ingredients ← ingredients[i]?
  if detected_words.length = 0 then
    pure 0
  else
    pure ((tp detected_words actual_ingredients : ℚ) / (detected_words.length : ℚ))

/-- `recall(ing_lst, i, ingredients)` from the notebook.  `none` models an
`IndexError` on the lookups or the `ZeroDivisionError` raised when the
actual ingredient list is empty while words were detected. -/
def «recall» (ing_lst : List (List String)) (i : Nat)
    (ingredients : List (List String)) : Option ℚ := do
  let detected_words ← ing_lst[i]?
  let actual_ingredients ← ingredients[i]?
  if detected_words.length = 0 then
    pure 0
  else if actual_ingredients.length = 0 then
    none
  else
    pure ((tp detected_words actual_ingredients : ℚ) / (actual_ingredients.length : ℚ))

/-- `F1score(ing_lst, i, ingredients)` from the notebook. -/
def F1score (ing_lst : List (List String)) (i : Nat)
    (ingredients : List (List String)) : Option ℚ := do
  let p ← precision ing_lst i ingredients
  let r ← «recall» ing_lst i ingredients
  if p = 0 ∧ r = 0 then
    pure 0
  else
    pure ((2 * p * r) / (p + r))

/-! ## The CSV cache round trip

`pyt_output = pd.DataFrame({'detected': pyt_ingredients})` followed by
`to_csv` stores each per-image token list as its Python `str()`
representation, e.g. `['contains', 'filtered']`; pandas' CSV quoting
round-trips that string verbatim, so the cell read back by `read_csv` is
exactly `str(lst)`.  The reload cell then computes
`[re.sub('[^a-zA-Z]+', '', e) for e in l.split(",")]`. -/

/-- The single quote character used by Python `repr` on these strings. -/
def singleQuote : Char := Char.ofNat 39

/-- Python `repr` of one token (the tokens contain no quotes, so `repr`
wraps them in single quotes). -/
def quoteTok (t : List Char) : List Char :=
  singleQuote :: (t ++ [singleQuote])

/-- The comma-space-joined body of Python's `str()` of a list of
strings. -/
def joinComma : List (List Char) → List Char
  | [] => []
  | t :: ts =>
    quoteTok t ++
      (match ts with
       | [] => []
       | _ :: _ => ',' :: ' ' :: joinComma ts)

/-- The continuation of `joinComma` after its first token. -/
def joinTail (ts : List (List Char)) : List Char :=
  match ts with
  | [] => []
  | _ :: _ => ',' :: ' ' :: joinComma ts

/-- Python `str()` of a list of strings, e.g. `['ab', 'cd']` or `[]`. -/
def pyReprTokens (l : List (List Char)) : List Char :=
  '[' :: (joinComma l ++ [']'])

/-- The separator of the reload cell's `l.split(",")`. -/
def isComma (c : Char) : Bool := c = ','

/-- The reload of one CSV cell:
`[re.sub('[^a-zA-Z]+', '', e) for e in l.split(",")]`. -/
def loadDetectedCell (cell : List Char) : List String :=
  (pySplitSep isComma cell).map fun e => ⟨e.filter isAsciiLetter⟩

/-- Saving one per-image token list into the `detected` CSV column and
reading it back. -/
def saveLoadRow (l : List String) : List String :=
  loadDetectedCell (pyReprTokens (l.map String.data))

/-! ## `top210` -/

/-- `(-np.array([scores])).argsort()[0]`: the indices `0, ..., n-1` sorted
by descending score (`numpy` leaves the order of tied scores unspecified;
we use the stable order). -/
def argsortDesc (scores : List ℚ) : List Nat :=
  (List.range scores.length).insertionSort
    fun i j => scores.getD j 0 ≤ scores.getD i 0

/-- `top210(scores)` from the notebook, with the globals `imgs` and
`ingredients` passed explicitly.  `none` models an `IndexError` on the
lookups; the `print` calls are side effects with no influence on the
returned pair. -/
def top210 {α β : Type} (scores : List ℚ) (imgs : List α)
    (ingredients : List β) : Option (List α × List β) := do
  let inds := (argsortDesc scores).take 210
  let imgs210 ← inds.mapM fun i => imgs[i]?
  let a_ings ← inds.mapM fun i => ingredients[i]?
  pure (imgs210, a_ings)

/-! ## Spec-side definition for the refinement claim about `clean_word` -/

/-- `clean_word` as the specification describes it: the word lowercased
with every character that is not an ASCII letter removed, except that the
result is `""` whenever that removal leaves fewer than 2 characters. -/
def clean_word_spec (word : String) : String :=
  let c := (word.data.map pyLowerChar).filter isAsciiLetter
  if c.length < 2 then "" else ⟨c⟩

/-! ## Helper lemmas -/

theorem toNat_ofNat_valid {n : Nat} (h : n.isValidChar) :
    (Char.ofNat n).toNat = n := by
  rw [Char.ofNat, dif_pos h]
  simp [Char.ofNatAux, Char.toNat, UInt32.toNat, BitVec.toNat_ofNatLt]

theorem char_le_iff_toNat {a b : Char} : a ≤ b ↔ a.toNat ≤ b.toNat := by
  rw [Char.le_def]
  exact Iff.rfl

theorem char_lt_iff_toNat {a b : Char} : a < b ↔ a.toNat < b.toNat := by
  rw [Char.lt_def]
  exact Iff.rfl

theorem ws_not_letter {c : Char} (h : c.isWhitespace = true) :
    isAsciiLetter c = false := by
  simp only [Char.isWhitespace, Bool.or_eq_true, decide_eq_true_eq] at h
  rcases h with ((h | h) | h) | h <;> subst h <;> decide

theorem filter_dropWhile {p q : Char → Bool}
    (h : ∀ c, q c = true → p c = false) :
    ∀ l : List Char, (l.dropWhile q).filter p = l.filter p := by
  intro l
  induction l with
  | nil => rfl
  | cons c cs ih =>
    by_cases hc : q c = true
    · rw [List.dropWhile_cons_of_pos hc, ih, List.filter_cons_of_neg]
      simp [h c hc]
    · rw [List.dropWhile_cons_of_neg hc]

theorem filter_pyStrip {p : Char → Bool}
    (hp : ∀ c, c.isWhitespace = true → p c = false) (l : List Char) :
    (pyStrip l).filter p = l.filter p := by
  unfold pyStrip
  rw [List.filter_reverse, filter_dropWhile hp, List.filter_reverse,
    List.reverse_reverse, filter_dropWhile hp]

/-- The `strip()` in `clean_word` is invisible behind the `[^a-zA-Z]`
filter, so `clean_word` is what the specification says it is (C5's key
computation lemma, shared by several claims). -/
theorem clean_word_eq_spec_fun (word : String) :
    clean_word word = clean_word_spec word := by
  show (if (List.filter isAsciiLetter
      (pyStrip (word.data.map pyLowerChar))).length < 2 then "" else _) = _
  rw [filter_pyStrip (fun c hc => ws_not_letter hc) (word.data.map pyLowerChar)]
  rfl

theorem char_ge_a_iff {c : Char} : 'a' ≤ c ↔ 97 ≤ c.toNat := by
  rw [char_le_iff_toNat]
  have h : ('a').toNat = 97 := rfl
  rw [h]

theorem char_le_z_iff {c : Char} : c ≤ 'z' ↔ c.toNat ≤ 122 := by
  rw [char_le_iff_toNat]
  have h : ('z').toNat = 122 := rfl
  rw [h]

theorem pyLowerChar_letter_lower {c : Char}
    (h : isAsciiLetter (pyLowerChar c) = true) :
    97 ≤ (pyLowerChar c).toNat ∧ (pyLowerChar c).toNat ≤ 122 := by
  unfold pyLowerChar at h ⊢
  by_cases hc : 65 ≤ c.toNat ∧ c.toNat ≤ 90
  · rw [if_pos hc]
    have hv : (c.toNat + 32).isValidChar := Or.inl (by omega)
    rw [toNat_ofNat_valid hv]
    omega
  · rw [if_neg hc]
    rw [if_neg hc] at h
    simp only [isAsciiLetter, Bool.or_eq_true, Bool.and_eq_true,
      decide_eq_true_eq] at h
    omega

/-- Any non-empty value of `clean_word` has at least two characters, all
of them lowercase ASCII letters. -/
theorem clean_word_shape {w : String} (h : clean_word w ≠ "") :
    2 ≤ (clean_word w).length ∧ ∀ c ∈ (clean_word w).data, 'a' ≤ c ∧ c ≤ 'z' := by
  rw [clean_word_eq_spec_fun] at h ⊢
  unfold clean_word_spec at h ⊢
  by_cases hlen : (List.filter isAsciiLetter (w.data.map pyLowerChar)).length < 2
  · exact absurd (if_pos hlen) h
  · rw [if_neg hlen] at h ⊢
    refine ⟨by simpa [String.length] using Nat.le_of_not_lt hlen, ?_⟩
    intro c hc
    simp only [List.mem_filter, List.mem_map] at hc
    obtain ⟨⟨c0, _, rfl⟩, hletter⟩ := hc
    have := pyLowerChar_letter_lower hletter
    exact ⟨char_ge_a_iff.mpr this.1, char_le_z_iff.mpr this.2⟩

theorem pyStrLe_iff {a b : String} : pyStrLe a b ↔ a ≤ b :=
  String.le_iff_toList_le.symm

theorem pyPost_sorted_le (l : List String) : (pyPost l).Sorted (· ≤ ·) :=
  (List.sorted_insertionSort pyStrLe _).imp fun h => pyStrLe_iff.mp h

theorem pyPost_nodup (l : List String) : (pyPost l).Nodup := by
  unfold pyPost pySortStrings
  exact (List.perm_insertionSort _ _).symm.nodup ((l.nodup_dedup).filter _)

theorem pyPost_sorted_lt (l : List String) : (pyPost l).Sorted (· < ·) :=
  (pyPost_sorted_le l).lt_of_le (pyPost_nodup l)

theorem mem_pyPost {l : List String} {s : String} :
    s ∈ pyPost l ↔ s ≠ "" ∧ s ∈ l := by
  unfold pyPost pySortStrings
  rw [List.mem_insertionSort, List.mem_filter, List.mem_dedup]
  simp [and_comm]

theorem precision_eq {ing_lst ingredients : List (List String)} {i : Nat}
    {d a : List String} (hd : ing_lst[i]? = some d)
    (ha : ingredients[i]? = some a) :
    precision ing_lst i ingredients =
      some (if d.length = 0 then 0 else (tp d a : ℚ) / (d.length : ℚ)) := by
  unfold precision
  rw [hd, ha]
  show (if d.length = 0 then some (0 : ℚ)
      else some ((tp d a : ℚ) / (d.length : ℚ))) = _
  by_cases h : d.length = 0
  · rw [if_pos h, if_pos h]
  · rw [if_neg h, if_neg h]

theorem recall_eq {ing_lst ingredients : List (List String)} {i : Nat}
    {d a : List String} (hd : ing_lst[i]? = some d)
    (ha : ingredients[i]? = some a) :
    «recall» ing_lst i ingredients =
      if d.length = 0 then some 0
      else if a.length = 0 then none
      else some ((tp d a : ℚ) / (a.length : ℚ)) := by
  unfold «recall»
  rw [hd, ha]
  rfl

theorem F1score_eq {ing_lst ingredients : List (List String)} {i : Nat}
    {p r : ℚ} (hp : precision ing_lst i ingredients = some p)
    (hr : «recall» ing_lst i ingredients = some r) :
    F1score ing_lst i ingredients =
      some (if p = 0 ∧ r = 0 then 0 else 2 * p * r / (p + r)) := by
  unfold F1score
  rw [hp, hr]
  show (if p = 0 ∧ r = 0 then some (0 : ℚ) else some (2 * p * r / (p + r))) = _
  by_cases h : p = 0 ∧ r = 0
  · rw [if_pos h, if_pos h]
  · rw [if_neg h, if_neg h]

theorem precision_some_elim {ing_lst ingredients : List (List String)}
    {i : Nat} {p : ℚ} (hp : precision ing_lst i ingredients = some p) :
    ∃ d a, ing_lst[i]? = some d ∧ ingredients[i]? = some a ∧
      p = (if d.length = 0 then 0 else (tp d a : ℚ) / (d.length : ℚ)) := by
  unfold precision at hp
  cases hd : ing_lst[i]? with
  | none => rw [hd] at hp; exact absurd hp (by simp [Option.bind])
  | some d =>
    cases ha : ingredients[i]? with
    | none => rw [hd, ha] at hp; exact absurd hp (by simp [Option.bind])
    | some a =>
      rw [hd, ha] at hp
      replace hp : (if d.length = 0 then some (0 : ℚ)
          else some ((tp d a : ℚ) / (d.length : ℚ))) = some p := hp
      refine ⟨d, a, rfl, rfl, ?_⟩
      by_cases h : d.length = 0
      · rw [if_pos h] at hp
        rw [if_pos h]
        exact (Option.some_inj.mp hp).symm
      · rw [if_neg h] at hp
        rw [if_neg h]
        exact (Option.some_inj.mp hp).symm

theorem recall_some_elim {ing_lst ingredients : List (List String)}
    {i : Nat} {r : ℚ} (hr : «recall» ing_lst i ingredients = some r) :
    ∃ d a, ing_lst[i]? = some d ∧ ingredients[i]? = some a ∧
      ((d.length = 0 ∧ r = 0) ∨
        (d.length ≠ 0 ∧ a.length ≠ 0 ∧ r = (tp d a : ℚ) / (a.length : ℚ))) := by
  unfold «recall» at hr
  cases hd : ing_lst[i]? with
  | none => rw [hd] at hr; exact absurd hr (by simp [Option.bind])
  | some d =>
    cases ha : ingredients[i]? with
    | none => rw [hd, ha] at hr; exact absurd hr (by simp [Option.bind])
    | some a =>
      rw [hd, ha] at hr
      replace hr : (if d.length = 0 then some (0 : ℚ)
          else if a.length = 0 then none
          else some ((tp d a : ℚ) / (a.length : ℚ))) = some r := hr
      refine ⟨d, a, rfl, rfl, ?_⟩
      by_cases h : d.length = 0
      · rw [if_pos h] at hr
        exact Or.inl ⟨h, (Option.some_inj.mp hr).symm⟩
      · rw [if_neg h] at hr
        by_cases h2 : a.length = 0
        · rw [if_pos h2] at hr
          exact absurd hr (by simp)
        · rw [if_neg h2] at hr
          exact Or.inr ⟨h, h2, (Option.some_inj.mp hr).symm⟩

/-! ## Claim theorems -/

/-- C1: for valid indices such that the detected list `ing_lst[i]` is empty
or the actual list `ingredients[i]` is non-empty, `precision` is the count
of detected tokens occurring in the actual list divided by the number of
detected tokens (`0` when nothing was detected), `recall` is that count
divided by the number of actual tokens (`0` when nothing was detected), and
`F1score` equals `2*p*r/(p+r)` for those values `p` and `r`, and `0` when
both are `0`. -/
theorem F1score_formula (ing_lst ingredients : List (List String)) (i : Nat)
    (hi : i < ing_lst.length) (hj : i < ingredients.length)
    (hcond : ing_lst[i] = [] ∨ ingredients[i] ≠ []) :
    precision ing_lst i ingredients =
      some (if (ing_lst[i]).length = 0 then 0
        else (tp ing_lst[i] ingredients[i] : ℚ) / ((ing_lst[i]).length : ℚ)) ∧
    «recall» ing_lst i ingredients =
      some (if (ing_lst[i]).length = 0 then 0
        else (tp ing_lst[i] ingredients[i] : ℚ) / ((ingredients[i]).length : ℚ)) ∧
    ∀ p r : ℚ, precision ing_lst i ingredients = some p →
      «recall» ing_lst i ingredients = some r →
      F1score ing_lst i ingredients =
        some (if p = 0 ∧ r = 0 then 0 else 2 * p * r / (p + r)) := by
  have hd : ing_lst[i]? = some ing_lst[i] := List.getElem?_eq_getElem hi
  have ha : ingredients[i]? = some ingredients[i] := List.getElem?_eq_getElem hj
  refine ⟨precision_eq hd ha, ?_, fun p r hp hr => F1score_eq hp hr⟩
  rw [recall_eq hd ha]
  by_cases h : (ing_lst[i]).length = 0
  · rw [if_pos h, if_pos h]
  · rw [if_neg h, if_neg h]
    have hne : (ingredients[i]).length ≠ 0 := by
      cases hcond with
      | inl hc => exact absurd (by rw [hc]; rfl) h
      | inr hc => simpa [List.length_eq_zero] using hc
    rw [if_neg hne]

/-- Witness for C1 at a concrete input. -/
theorem F1score_formula_witness :
    0 < ([["ab"]] : List (List String)).length ∧
    (∀ p r : ℚ, precision [["ab"]] 0 [["ab"]] = some p →
      «recall» [["ab"]] 0 [["ab"]] = some r →
      F1score [["ab"]] 0 [["ab"]] =
        some (if p = 0 ∧ r = 0 then 0 else 2 * p * r / (p + r))) :=
  ⟨by decide,
    (F1score_formula [["ab"]] [["ab"]] 0 (by decide) (by decide)
      (Or.inr (by decide))).2.2⟩

/-- C2 fails on the code as stated: with a duplicated detected token the
`recall` value exceeds `1`, because the numerator counts detected tokens
with multiplicity while the denominator is the length of the actual
list. -/
theorem recall_above_one_cex :
    «recall» [["aa", "aa"]] 0 [["aa"]] = some 2 ∧ ¬((2 : ℚ) ≤ 1) := by
  constructor
  · rw [recall_eq (d := ["aa", "aa"]) (a := ["aa"]) rfl rfl]
    simp [tp]
  · norm_num

/-- C2 (amended): whenever the detected token list at index `i` is
duplicate-free and `recall` returns a value, that value lies between `0`
and `1`. -/
theorem recall_mem_unit (ing_lst ingredients : List (List String)) (i : Nat)
    (r : ℚ) (hnd : (ing_lst.getD i []).Nodup)
    (hr : «recall» ing_lst i ingredients = some r) :
    0 ≤ r ∧ r ≤ 1 := by
  obtain ⟨d, a, hd, ha, hcase⟩ := recall_some_elim hr
  have hdget : ing_lst.getD i [] = d := by
    rw [List.getD_eq_getElem?_getD, hd]
    rfl
  rw [hdget] at hnd
  rcases hcase with ⟨-, rfl⟩ | ⟨-, halen, rfl⟩
  · exact ⟨le_refl 0, zero_le_one⟩
  · have hfilter : tp d a = (d.filter fun dw => decide (dw ∈ a)).length :=
      List.countP_eq_length_filter _ _
    have hsub : ∀ x ∈ d.filter fun dw => decide (dw ∈ a), x ∈ a := by
      intro x hx
      exact of_decide_eq_true (List.mem_filter.mp hx).2
    have hnodup_f : (d.filter fun dw => decide (dw ∈ a)).Nodup := hnd.filter _
    have hcard : (d.filter fun dw => decide (dw ∈ a)).length ≤ a.length := by
      have h1 : ((d.filter fun dw => decide (dw ∈ a)).toFinset).card =
          (d.filter fun dw => decide (dw ∈ a)).length :=
        List.toFinset_card_of_nodup hnodup_f
      have h2 : (d.filter fun dw => decide (dw ∈ a)).toFinset ⊆ a.toFinset := by
        intro x hx
        rw [List.mem_toFinset] at hx ⊢
        exact hsub x hx
      calc (d.filter fun dw => decide (dw ∈ a)).length
          = ((d.filter fun dw => decide (dw ∈ a)).toFinset).card := h1.symm
        _ ≤ a.toFinset.card := Finset.card_le_card h2
        _ ≤ a.length := List.toFinset_card_le a
    have hapos : (0 : ℚ) < (a.length : ℚ) := by
      exact_mod_cast Nat.pos_of_ne_zero halen
    constructor
    · exact div_nonneg (Nat.cast_nonneg _) (Nat.cast_nonneg _)
    · rw [div_le_one hapos]
      exact_mod_cast hfilter ▸ hcard

/-- Witness for the amended C2 at a concrete input. -/
theorem recall_mem_unit_witness :
    (([["ab"]] : List (List String)).getD 0 []).Nodup ∧
    «recall» [["ab"]] 0 [["ab", "cd"]] = some (1 / 2) ∧
    (0 ≤ (1 / 2 : ℚ) ∧ (1 / 2 : ℚ) ≤ 1) :=
  ⟨by decide,
    by rw [recall_eq (d := ["ab"]) (a := ["ab", "cd"]) rfl rfl]; simp [tp],
    recall_mem_unit [["ab"]] [["ab", "cd"]] 0 (1 / 2) (by decide)
      (by rw [recall_eq (d := ["ab"]) (a := ["ab", "cd"]) rfl rfl]; simp [tp])⟩

/-- C4: when `precision` and `recall` both return, they share the
numerator `tp`, so one is `0` exactly when the other is; hence when the
`p==0 and r==0` guard does not fire the denominator `p+r` is strictly
positive and the `F1score` division is safe. -/
theorem precision_zero_iff_recall_zero (ing_lst ingredients : List (List String))
    (i : Nat) (p r : ℚ)
    (hp : precision ing_lst i ingredients = some p)
    (hr : «recall» ing_lst i ingredients = some r) :
    (p = 0 ↔ r = 0) ∧ (¬(p = 0 ∧ r = 0) → 0 < p + r) ∧
    F1score ing_lst i ingredients =
      some (if p = 0 ∧ r = 0 then 0 else 2 * p * r / (p + r)) := by
  obtain ⟨d, a, hd, ha, hpv⟩ := precision_some_elim hp
  obtain ⟨d', a', hd', ha', hcase⟩ := recall_some_elim hr
  have hdd : d' = d := by
    have := hd.symm.trans hd'
    exact (Option.some_inj.mp this).symm
  have haa : a' = a := by
    have := ha.symm.trans ha'
    exact (Option.some_inj.mp this).symm
  rw [hdd, haa] at hcase
  refine ⟨?_, ?_, F1score_eq hp hr⟩
  · rcases hcase with ⟨hlen, rfl⟩ | ⟨hlen, halen, rfl⟩
    · rw [if_pos hlen] at hpv
      subst hpv
      exact Iff.rfl
    · rw [if_neg hlen] at hpv
      subst hpv
      have hdlen : ((d.length : ℚ)) ≠ 0 := Nat.cast_ne_zero.mpr hlen
      have halen2 : ((a.length : ℚ)) ≠ 0 := Nat.cast_ne_zero.mpr halen
      rw [div_eq_zero_iff, div_eq_zero_iff]
      constructor
      · rintro (h | h)
        · exact Or.inl h
        · exact absurd h hdlen
      · rintro (h | h)
        · exact Or.inl h
        · exact absurd h halen2
  · intro hguard
    have hpr : p = 0 ↔ r = 0 := by
      rcases hcase with ⟨hlen, rfl⟩ | ⟨hlen, halen, rfl⟩
      · rw [if_pos hlen] at hpv
        subst hpv
        exact Iff.rfl
      · rw [if_neg hlen] at hpv
        subst hpv
        have hdlen : ((d.length : ℚ)) ≠ 0 := Nat.cast_ne_zero.mpr hlen
        have halen2 : ((a.length : ℚ)) ≠ 0 := Nat.cast_ne_zero.mpr halen
        rw [div_eq_zero_iff, div_eq_zero_iff]
        constructor
        · rintro (h | h)
          · exact Or.inl h
          · exact absurd h hdlen
        · rintro (h | h)
          · exact Or.inl h
          · exact absurd h halen2
    have hpne : p ≠ 0 := fun h0 => hguard ⟨h0, hpr.mp h0⟩
    have hrne : r ≠ 0 := fun h0 => hguard ⟨hpr.mpr h0, h0⟩
    have hpnn : 0 ≤ p := by
      rcases hcase with ⟨hlen, rfl⟩ | ⟨hlen, halen, rfl⟩
      · rw [if_pos hlen] at hpv
        subst hpv
        exact le_refl 0
      · rw [if_neg hlen] at hpv
        subst hpv
        exact div_nonneg (Nat.cast_nonneg _) (Nat.cast_nonneg _)
    have hrnn : 0 ≤ r := by
      rcases hcase with ⟨hlen, rfl⟩ | ⟨hlen, halen, rfl⟩
      · exact le_refl 0
      · exact div_nonneg (Nat.cast_nonneg _) (Nat.cast_nonneg _)
    have hppos : 0 < p := lt_of_le_of_ne hpnn (Ne.symm hpne)
    have hrpos : 0 < r := lt_of_le_of_ne hrnn (Ne.symm hrne)
    exact add_pos hppos hrpos

/-- Witness for C4 at a concrete input. -/
theorem precision_zero_iff_recall_zero_witness :
    precision [["ab"]] 0 [["ab", "cd"]] = some 1 ∧
    «recall» [["ab"]] 0 [["ab", "cd"]] = some (1 / 2) ∧
    (((1 : ℚ) = 0 ↔ (1 / 2 : ℚ) = 0) ∧
      (¬((1 : ℚ) = 0 ∧ (1 / 2 : ℚ) = 0) → 0 < (1 : ℚ) + 1 / 2) ∧
      F1score [["ab"]] 0 [["ab", "cd"]] =
        some (if (1 : ℚ) = 0 ∧ (1 / 2 : ℚ) = 0 then 0
          else 2 * 1 * (1 / 2) / (1 + 1 / 2))) :=
  ⟨by rw [precision_eq (d := ["ab"]) (a := ["ab", "cd"]) rfl rfl]; simp [tp],
    by rw [recall_eq (d := ["ab"]) (a := ["ab", "cd"]) rfl rfl]; simp [tp],
    precision_zero_iff_recall_zero [["ab"]] [["ab", "cd"]] 0 1 (1 / 2)
      (by rw [precision_eq (d := ["ab"]) (a := ["ab", "cd"]) rfl rfl]; simp [tp])
      (by rw [recall_eq (d := ["ab"]) (a := ["ab", "cd"]) rfl rfl]; simp [tp])⟩

/-- C5: `clean_word(w)` returns `w` lowercased with every character that
is not an ASCII letter removed, except that it returns `""` whenever that
removal leaves fewer than 2 characters (`clean_word_spec` states exactly
this; the `strip()` the code also performs is invisible behind the letter
filter). -/
theorem clean_word_meets_spec (w : String) : clean_word w = clean_word_spec w :=
  clean_word_eq_spec_fun w

/-- C8: at an index where the detected list equals the actual list and that
list is non-empty (and duplicate-free), `precision`, `recall` and `F1score`
all return exactly `1`. -/
theorem perfect_detection_ones (ing_lst ingredients : List (List String))
    (i : Nat) (hi : i < ing_lst.length) (hj : i < ingredients.length)
    (heq : ing_lst[i] = ingredients[i]) (hne : ing_lst[i] ≠ [])
    (_hnodup : (ing_lst[i]).Nodup) :
    precision ing_lst i ingredients = some 1 ∧
    «recall» ing_lst i ingredients = some 1 ∧
    F1score ing_lst i ingredients = some 1 := by
  have hd : ing_lst[i]? = some ing_lst[i] := List.getElem?_eq_getElem hi
  have ha : ingredients[i]? = some ingredients[i] := List.getElem?_eq_getElem hj
  have hlen : (ing_lst[i]).length ≠ 0 := by
    simpa [List.length_eq_zero] using hne
  have hcast : ((ing_lst[i]).length : ℚ) ≠ 0 := Nat.cast_ne_zero.mpr hlen
  have htp : tp ing_lst[i] ingredients[i] = (ing_lst[i]).length := by
    rw [← heq]
    exact List.countP_eq_length.mpr fun x hx => decide_eq_true hx
  have hp : precision ing_lst i ingredients = some 1 := by
    rw [precision_eq hd ha, if_neg hlen, htp, div_self hcast]
  have hr : «recall» ing_lst i ingredients = some 1 := by
    rw [recall_eq hd ha, if_neg hlen, if_neg (heq ▸ hlen), htp, ← heq,
      div_self hcast]
  refine ⟨hp, hr, ?_⟩
  rw [F1score_eq hp hr, if_neg (by norm_num)]
  norm_num

/-- Witness for C8 at a concrete input. -/
theorem perfect_detection_ones_witness :
    0 < ([["ab", "cd"]] : List (List String)).length ∧
    (precision [["ab", "cd"]] 0 [["ab", "cd"]] = some 1 ∧
      «recall» [["ab", "cd"]] 0 [["ab", "cd"]] = some 1 ∧
      F1score [["ab", "cd"]] 0 [["ab", "cd"]] = some 1) :=
  ⟨by decide,
    perfect_detection_ones [["ab", "cd"]] [["ab", "cd"]] 0 (by decide)
      (by decide) (by decide) (by decide) (by decide)⟩

/-- C10: the five routines are deterministic pure functions of their
arguments: equal arguments give equal results (the arguments themselves
are immutable values in this embedding, so they are trivially left
unchanged). -/
theorem batch_transformations_deterministic (w w' t t' : String)
    (lst lst' : List String) (ing ing' ings ings' : List (List String))
    (i i' : Nat) (h1 : w = w') (h2 : t = t') (h3 : lst = lst')
    (h4 : ing = ing') (h5 : i = i') (h6 : ings = ings') :
    clean_word w = clean_word w' ∧
    clean_text t = clean_text t' ∧
    clean_text_nosplit lst = clean_text_nosplit lst' ∧
    precision ing i ings = precision ing' i' ings' ∧
    «recall» ing i ings = «recall» ing' i' ings' ∧
    F1score ing i ings = F1score ing' i' ings' := by
  subst h1 h2 h3 h4 h5 h6
  exact ⟨rfl, rfl, rfl, rfl, rfl, rfl⟩

/-- Witness for C10 at a concrete input. -/
theorem batch_transformations_deterministic_witness :
    "Ab" = "Ab" ∧
    (clean_word "Ab" = clean_word "Ab" ∧
      clean_text "x y" = clean_text "x y" ∧
      clean_text_nosplit ["ab"] = clean_text_nosplit ["ab"] ∧
      precision [["ab"]] 0 [["ab"]] = precision [["ab"]] 0 [["ab"]] ∧
      «recall» [["ab"]] 0 [["ab"]] = «recall» [["ab"]] 0 [["ab"]] ∧
      F1score [["ab"]] 0 [["ab"]] = F1score [["ab"]] 0 [["ab"]]) :=
  ⟨rfl,
    batch_transformations_deterministic "Ab" "Ab" "x y" "x y" ["ab"] ["ab"]
      [["ab"]] [["ab"]] [["ab"]] [["ab"]] 0 0 rfl rfl rfl rfl rfl rfl⟩

/-- C6 fails as stated: the wording reads "every punctuation character …
replaced by a space", but the program's regex `'['+string.punctuation+']'`
never matches the backslash (its `\]` is an escaped `]`), so on
`"water\sugar"` the program keeps one token where the claim's reading
blanks the backslash and gets two. -/
theorem clean_text_backslash_cex :
    clean_text "water\\sugar" = ["watersugar"] ∧
    clean_text_claim "water\\sugar" = ["sugar", "water"] ∧
    clean_text "water\\sugar" ≠ clean_text_claim "water\\sugar" := by
  exact ⟨by decide, by decide, by decide⟩

/-- C6 (amended): `clean_text` with the default `split=True` returns the
ascending-sorted list (strictly, so also duplicate-free) of the distinct
non-empty values of `clean_word` on the whitespace-separated tokens of the
text after every digit and every punctuation character *other than the
backslash* has been replaced by a space (`pyTokens` blanks exactly the
characters the program's regex matches); with `split=False` it does the
same over the elements of the input list.  A strictly sorted list is
uniquely determined by the membership equivalence, so this pins both
results exactly. -/
theorem clean_text_characterization :
    (∀ text : String,
      (clean_text text).Sorted (· < ·) ∧
      ∀ s : String, s ∈ clean_text text ↔
        (s ≠ "" ∧ ∃ w ∈ pyTokens text, clean_word ⟨w⟩ = s)) ∧
    (∀ lst : List String,
      (clean_text_nosplit lst).Sorted (· < ·) ∧
      ∀ s : String, s ∈ clean_text_nosplit lst ↔
        (s ≠ "" ∧ ∃ w ∈ lst, clean_word w = s)) := by
  constructor
  · intro text
    refine ⟨pyPost_sorted_lt _, fun s => ?_⟩
    unfold clean_text
    rw [mem_pyPost, List.mem_map]
  · intro lst
    refine ⟨pyPost_sorted_lt _, fun s => ?_⟩
    unfold clean_text_nosplit
    rw [mem_pyPost, List.mem_map]

/-- C7: every list returned by `clean_text` (either branch) is strictly
ascending, duplicate-free, and each element has at least 2 characters, all
lowercase ASCII letters. -/
theorem clean_text_invariants :
    (∀ text : String,
      (clean_text text).Sorted (· < ·) ∧ (clean_text text).Nodup ∧
      ∀ s ∈ clean_text text, 2 ≤ s.length ∧ ∀ c ∈ s.data, 'a' ≤ c ∧ c ≤ 'z') ∧
    (∀ lst : List String,
      (clean_text_nosplit lst).Sorted (· < ·) ∧
      (clean_text_nosplit lst).Nodup ∧
      ∀ s ∈ clean_text_nosplit lst,
        2 ≤ s.length ∧ ∀ c ∈ s.data, 'a' ≤ c ∧ c ≤ 'z') := by
  constructor
  · intro text
    refine ⟨pyPost_sorted_lt _, pyPost_nodup _, fun s hs => ?_⟩
    unfold clean_text at hs
    rw [mem_pyPost, List.mem_map] at hs
    obtain ⟨hne, w, -, rfl⟩ := hs
    exact clean_word_shape hne
  · intro lst
    refine ⟨pyPost_sorted_lt _, pyPost_nodup _, fun s hs => ?_⟩
    unfold clean_text_nosplit at hs
    rw [mem_pyPost, List.mem_map] at hs
    obtain ⟨hne, w, -, rfl⟩ := hs
    exact clean_word_shape hne

/-- Witness for C7 at concrete inputs and members. -/
theorem clean_text_invariants_witness :
    "ab" ∈ clean_text "ab cd" ∧
    (2 ≤ ("ab" : String).length ∧ ∀ c ∈ ("ab" : String).data, 'a' ≤ c ∧ c ≤ 'z') ∧
    "cd" ∈ clean_text_nosplit ["cd", "x"] ∧
    (2 ≤ ("cd" : String).length ∧ ∀ c ∈ ("cd" : String).data, 'a' ≤ c ∧ c ≤ 'z') :=
  ⟨by decide, (clean_text_invariants.1 "ab cd").2.2 "ab" (by decide),
    by decide, (clean_text_invariants.2 ["cd", "x"]).2.2 "cd" (by decide)⟩

/-! ### Lemmas about the CSV round trip -/

theorem joinComma_cons (t : List Char) (ts : List (List Char)) :
    joinComma (t :: ts) = quoteTok t ++ joinTail ts := by
  cases ts <;> rfl

theorem pySplitSep_ne_nil (sep : Char → Bool) (l : List Char) :
    pySplitSep sep l ≠ [] := by
  cases l with
  | nil => simp [pySplitSep]
  | cons c cs =>
    unfold pySplitSep
    by_cases h : sep c
    · simp [h]
    · simp only [h]
      cases pySplitSep sep cs <;> simp

theorem pySplitSep_cons_of_sep {sep : Char → Bool} {c : Char}
    (h : sep c = true) (cs : List Char) :
    pySplitSep sep (c :: cs) = [] :: pySplitSep sep cs := by
  have hstep : pySplitSep sep (c :: cs) =
      if sep c then [] :: pySplitSep sep cs
      else
        match pySplitSep sep cs with
        | [] => [[c]]
        | p :: ps => (c :: p) :: ps := rfl
  rw [hstep, if_pos h]

theorem pySplitSep_cons_of_not_sep {sep : Char → Bool} {c : Char}
    (h : sep c = false) (cs : List Char) {p : List Char}
    {ps : List (List Char)} (hcs : pySplitSep sep cs = p :: ps) :
    pySplitSep sep (c :: cs) = (c :: p) :: ps := by
  unfold pySplitSep
  rw [if_neg (by simp [h]), hcs]

theorem pySplitSep_append_of_not_sep {sep : Char → Bool} {a : List Char}
    (ha : ∀ c ∈ a, sep c = false) (b : List Char) {p : List Char}
    {ps : List (List Char)} (hb : pySplitSep sep b = p :: ps) :
    pySplitSep sep (a ++ b) = (a ++ p) :: ps := by
  induction a with
  | nil => simpa using hb
  | cons c cs ih =>
    have hc : sep c = false := ha c (List.mem_cons_self c cs)
    have ih2 := ih fun x hx => ha x (List.mem_cons_of_mem c hx)
    rw [List.cons_append]
    rw [pySplitSep_cons_of_not_sep hc _ ih2]
    rw [List.cons_append]

theorem pySplitSep_of_no_sep {sep : Char → Bool} {l : List Char}
    (hl : ∀ c ∈ l, sep c = false) :
    pySplitSep sep l = [l] := by
  have := @pySplitSep_append_of_not_sep sep l hl [] [] [] rfl
  simpa using this

theorem letter_not_comma {c : Char} (h : isAsciiLetter c = true) :
    isComma c = false := by
  simp only [isComma, decide_eq_false_iff_not]
  rintro rfl
  exact absurd h (by decide)

theorem quoteTok_no_comma {t : List Char}
    (ht : ∀ c ∈ t, isAsciiLetter c = true) :
    ∀ c ∈ quoteTok t, isComma c = false := by
  intro c hc
  unfold quoteTok at hc
  rcases List.mem_cons.mp hc with rfl | hc
  · decide
  · rcases List.mem_append.mp hc with hc | hc
    · exact letter_not_comma (ht c hc)
    · rcases List.mem_singleton.mp hc with rfl
      decide

theorem filter_quoteTok {t : List Char}
    (ht : ∀ c ∈ t, isAsciiLetter c = true) :
    (quoteTok t).filter isAsciiLetter = t := by
  unfold quoteTok
  rw [List.filter_cons_of_neg (by decide), List.filter_append,
    List.filter_cons_of_neg (by decide), List.filter_nil,
    List.append_nil, List.filter_eq_self.mpr ht]

/-- Splitting the tail of the Python repr on commas and deleting the
non-letters from each piece recovers the token lists, provided the tokens
are made of letters only. -/
theorem split_join (ts : List (List Char))
    (hts : ∀ t ∈ ts, ∀ c ∈ t, isAsciiLetter c = true) :
    ∀ (t : List Char), (∀ c ∈ t, isAsciiLetter c = true) →
    ∀ (pre : List Char), (∀ c ∈ pre, isComma c = false) →
      pre.filter isAsciiLetter = [] →
      (pySplitSep isComma (pre ++ quoteTok t ++ joinTail ts ++ [']'])).map
          (fun e => e.filter isAsciiLetter) = t :: ts := by
  induction ts with
  | nil =>
    intro t ht pre hpre1 hpre2
    have hall : ∀ c ∈ pre ++ quoteTok t ++ joinTail ([] : List (List Char)) ++ [']'],
        isComma c = false := by
      intro c hc
      simp only [joinTail, List.append_nil, List.mem_append] at hc
      rcases hc with (hc | hc) | hc
      · exact hpre1 c hc
      · exact quoteTok_no_comma ht c hc
      · rcases List.mem_singleton.mp hc with rfl
        decide
    rw [pySplitSep_of_no_sep hall]
    simp only [List.map_cons, List.map_nil]
    congr 1
    show (pre ++ quoteTok t ++ joinTail [] ++ [']']).filter isAsciiLetter = t
    simp only [joinTail, List.append_nil]
    rw [List.filter_append, List.filter_append, hpre2, filter_quoteTok ht]
    simp [List.filter_cons_of_neg (p := isAsciiLetter) (by decide : ¬ isAsciiLetter ']' = true)]
  | cons u us ih =>
    intro t ht pre hpre1 hpre2
    have hu : ∀ c ∈ u, isAsciiLetter c = true :=
      hts u (List.mem_cons_self u us)
    have hus : ∀ v ∈ us, ∀ c ∈ v, isAsciiLetter c = true :=
      fun v hv => hts v (List.mem_cons_of_mem u hv)
    have hB := ih hus u hu [' '] (by intro c hc; rcases List.mem_singleton.mp hc with rfl; decide)
      (by decide)
    set B := [' '] ++ quoteTok u ++ joinTail us ++ [']'] with hBdef
    obtain ⟨p, ps, hsplitB⟩ : ∃ p ps, pySplitSep isComma B = p :: ps := by
      cases hsB : pySplitSep isComma B with
      | nil => exact absurd hsB (pySplitSep_ne_nil _ _)
      | cons p ps => exact ⟨p, ps, rfl⟩
    have hA : ∀ c ∈ pre ++ quoteTok t, isComma c = false := by
      intro c hc
      rcases List.mem_append.mp hc with hc | hc
      · exact hpre1 c hc
      · exact quoteTok_no_comma ht c hc
    have hshape : pre ++ quoteTok t ++ joinTail (u :: us) ++ [']'] =
        (pre ++ quoteTok t) ++ (',' :: B) := by
      show pre ++ quoteTok t ++ (',' :: ' ' :: joinComma (u :: us)) ++ [']'] = _
      rw [joinComma_cons]
      simp [hBdef, List.append_assoc]
    rw [hshape]
    have hcomma : pySplitSep isComma (',' :: B) = [] :: p :: ps := by
      rw [pySplitSep_cons_of_sep (by decide) B, hsplitB]
    rw [pySplitSep_append_of_not_sep hA (',' :: B) hcomma, List.append_nil]
    simp only [List.map_cons]
    have htail : (p :: ps).map (fun e => e.filter isAsciiLetter) = u :: us := by
      rw [← hsplitB]
      exact hB
    simp only [List.map_cons] at htail
    rw [List.filter_append, hpre2, filter_quoteTok ht, List.nil_append, htail]

/-- C3 fails as stated: an empty per-image token list (which does occur —
the notebook's own output shows a reloaded `['']` row) is stored as `"[]"`
and reloaded as the one-element list containing the empty string, not as
the empty list that was saved. -/
theorem csv_roundtrip_empty_cex :
    saveLoadRow [] = [""] ∧ ([""] : List String) ≠ ([] : List String) := by
  exact ⟨rfl, by decide⟩

/-- C3 (amended): for every *non-empty* per-image list of cleaned detected
tokens (each consisting of ASCII letters only, as `clean_text` guarantees),
saving the list as the `detected` CSV cell and reloading it yields the list
that was saved. -/
theorem csv_roundtrip_id (l : List String) (hne : l ≠ [])
    (hok : ∀ s ∈ l, ∀ c ∈ s.data, isAsciiLetter c = true) :
    saveLoadRow l = l := by
  obtain ⟨s, ss, rfl⟩ := List.exists_cons_of_ne_nil hne
  have hcell : pyReprTokens ((s :: ss).map String.data) =
      ['['] ++ quoteTok s.data ++ joinTail (ss.map String.data) ++ [']'] := by
    unfold pyReprTokens
    rw [List.map_cons, joinComma_cons]
    simp [List.append_assoc]
  have hsplit := split_join (ss.map String.data)
      (by
        intro t ht
        obtain ⟨v, hv, rfl⟩ := List.mem_map.mp ht
        exact hok v (List.mem_cons_of_mem s hv))
      s.data (hok s (List.mem_cons_self s ss)) ['[']
      (by
        intro c hc
        rcases List.mem_singleton.mp hc with rfl
        decide)
      (by decide)
  show (pySplitSep isComma (pyReprTokens ((s :: ss).map String.data))).map
      (fun e => (⟨e.filter isAsciiLetter⟩ : String)) = s :: ss
  rw [hcell]
  have hcomp : (pySplitSep isComma
        (['['] ++ quoteTok s.data ++ joinTail (ss.map String.data) ++ [']'])).map
      (fun e => (⟨e.filter isAsciiLetter⟩ : String)) =
      ((pySplitSep isComma
        (['['] ++ quoteTok s.data ++ joinTail (ss.map String.data) ++ [']'])).map
        fun e => e.filter isAsciiLetter).map (fun d => (⟨d⟩ : String)) := by
    rw [List.map_map]
    rfl
  rw [hcomp, hsplit]
  simp only [List.map_cons, List.map_map]
  rw [show ((fun d => (⟨d⟩ : String)) ∘ String.data) = id from funext fun x => rfl,
    List.map_id]

/-- Witness for the amended C3 at a concrete input. -/
theorem csv_roundtrip_id_witness :
    (["ab", "cd"] : List String) ≠ [] ∧
    (∀ s ∈ (["ab", "cd"] : List String), ∀ c ∈ s.data, isAsciiLetter c = true) ∧
    saveLoadRow ["ab", "cd"] = ["ab", "cd"] :=
  ⟨by decide, by decide, csv_roundtrip_id ["ab", "cd"] (by decide) (by decide)⟩

/-! ### Lemmas about `top210` -/

theorem mapM_getElem?_eq {α : Type} (xs : List α) (d : α) :
    ∀ (inds : List Nat), (∀ i ∈ inds, i < xs.length) →
      inds.mapM (fun i => xs[i]?) = some (inds.map fun i => xs.getD i d) := by
  intro inds
  induction inds with
  | nil => intro _; rfl
  | cons j js ih =>
    intro h
    have hj : j < xs.length := h j (List.mem_cons_self _ _)
    have hjs := ih fun i hi => h i (List.mem_cons_of_mem _ hi)
    rw [List.mapM_cons, hjs, List.getElem?_eq_getElem hj]
    simp only [Option.bind_eq_bind, Option.some_bind, Option.pure_def,
      List.map_cons, Option.some_inj]
    congr 1
    rw [List.getD_eq_getElem?_getD, List.getElem?_eq_getElem hj]
    rfl

/-- C9: with at least 210 scores and images / actual-ingredient lists for
all scored indices, `top210` returns the images and the ingredient lists
at the indices of the 210 largest scores: both returned lists have length
exactly 210, the index list is the 210-prefix of a descending-by-score
permutation of `0, ..., n-1`, and every selected index has a score at
least as large as every unselected one. -/
theorem top210_spec {α β : Type} [Inhabited α] [Inhabited β]
    (scores : List ℚ) (imgs : List α) (ingredients : List β)
    (hs : 210 ≤ scores.length) (himg : scores.length ≤ imgs.length)
    (hing : scores.length ≤ ingredients.length) :
    top210 scores imgs ingredients =
      some (((argsortDesc scores).take 210).map (fun i => imgs.getD i default),
        ((argsortDesc scores).take 210).map
          (fun i => ingredients.getD i default)) ∧
    ((argsortDesc scores).take 210).length = 210 ∧
    List.Perm (argsortDesc scores) (List.range scores.length) ∧
    ((argsortDesc scores).take 210).Pairwise
      (fun i j => scores.getD j 0 ≤ scores.getD i 0) ∧
    ∀ i ∈ (argsortDesc scores).take 210,
      ∀ j ∈ (argsortDesc scores).drop 210, scores.getD j 0 ≤ scores.getD i 0 := by
  have hperm : List.Perm (argsortDesc scores) (List.range scores.length) :=
    List.perm_insertionSort _ _
  have hlen : (argsortDesc scores).length = scores.length :=
    hperm.length_eq.trans (List.length_range _)
  have hmem : ∀ i ∈ argsortDesc scores, i < scores.length := fun i hi =>
    List.mem_range.mp (hperm.mem_iff.mp hi)
  have hmemtake : ∀ i ∈ (argsortDesc scores).take 210, i < scores.length :=
    fun i hi => hmem i (List.take_subset _ _ hi)
  haveI htot : IsTotal ℕ (fun i j => scores.getD j 0 ≤ scores.getD i 0) :=
    ⟨fun a b => le_total (scores.getD b 0) (scores.getD a 0)⟩
  haveI htr : IsTrans ℕ (fun i j => scores.getD j 0 ≤ scores.getD i 0) :=
    ⟨fun _ _ _ h1 h2 => le_trans h2 h1⟩
  have hsorted : (argsortDesc scores).Pairwise
      (fun i j => scores.getD j 0 ≤ scores.getD i 0) :=
    List.sorted_insertionSort _ _
  refine ⟨?_, ?_, hperm, ?_, ?_⟩
  · show (do
        let imgs210 ← ((argsortDesc scores).take 210).mapM fun i => imgs[i]?
        let a_ings ← ((argsortDesc scores).take 210).mapM
          fun i => ingredients[i]?
        pure (imgs210, a_ings)) =
      some (((argsortDesc scores).take 210).map (fun i => imgs.getD i default),
        ((argsortDesc scores).take 210).map
          (fun i => ingredients.getD i default))
    rw [mapM_getElem?_eq imgs default _
        (fun i hi => lt_of_lt_of_le (hmemtake i hi) himg),
      mapM_getElem?_eq ingredients default _
        (fun i hi => lt_of_lt_of_le (hmemtake i hi) hing)]
    rfl
  · rw [List.length_take, hlen]
    omega
  · exact hsorted.sublist (List.take_sublist _ _)
  · have hsplit := (List.take_append_drop 210 (argsortDesc scores)) ▸ hsorted
    exact (List.pairwise_append.mp hsplit).2.2

set_option maxRecDepth 4000

/-- Witness for C9 at a concrete input. -/
theorem top210_spec_witness :
    210 ≤ (List.replicate 210 (0 : ℚ)).length ∧
    (List.replicate 210 (0 : ℚ)).length ≤ (List.replicate 210 "").length ∧
    (List.replicate 210 (0 : ℚ)).length ≤
      (List.replicate 210 ([] : List String)).length ∧
    (top210 (List.replicate 210 (0 : ℚ)) (List.replicate 210 "")
        (List.replicate 210 ([] : List String)) =
      some (((argsortDesc (List.replicate 210 (0 : ℚ))).take 210).map
          (fun i => (List.replicate 210 "").getD i default),
        ((argsortDesc (List.replicate 210 (0 : ℚ))).take 210).map
          (fun i => (List.replicate 210 ([] : List String)).getD i default)) ∧
      ((argsortDesc (List.replicate 210 (0 : ℚ))).take 210).length = 210 ∧
      List.Perm (argsortDesc (List.replicate 210 (0 : ℚ)))
        (List.range (List.replicate 210 (0 : ℚ)).length) ∧
      ((argsortDesc (List.replicate 210 (0 : ℚ))).take 210).Pairwise
        (fun i j => (List.replicate 210 (0 : ℚ)).getD j 0 ≤
          (List.replicate 210 (0 : ℚ)).getD i 0) ∧
      ∀ i ∈ (argsortDesc (List.replicate 210 (0 : ℚ))).take 210,
        ∀ j ∈ (argsortDesc (List.replicate 210 (0 : ℚ))).drop 210,
          (List.replicate 210 (0 : ℚ)).getD j 0 ≤
            (List.replicate 210 (0 : ℚ)).getD i 0) :=
  ⟨by decide, by decide, by decide,
    top210_spec (List.replicate 210 (0 : ℚ)) (List.replicate 210 "")
      (List.replicate 210 ([] : List String)) (by decide) (by decide)
      (by decide)⟩

end OFFEval
